import Mathlib

/-!
Verification of the Autocorrect-tool core against its specification.

The development shallowly embeds the three core modules
(metrics calculator, correction engine, text processor) over
`List Char` for text and `ℚ` for the numeric scores. External
collaborators that are not part of the repository (the dictionary
spell checker, the TextBlob grammar pass, the regex engine behind the
grammar/fluency pattern tables, and difflib) are abstracted as
function parameters; everything written in the repository itself is
embedded concretely.
-/

namespace Autocorrect

/-! ## Basic character classes and Python string helpers -/

/-- The whitespace class used by Python `str.split`, `str.strip` and
the regex class for whitespace. -/
def isSpaceChar (c : Char) : Bool :=
  c = ' ' || c = '\t' || c = '\n' || c = '\r' || c = '\x0b' || c = '\x0c'

/-- Accumulator loop for whitespace splitting (Python `str.split()`). -/
def splitLoop : List Char → List Char → List (List Char)
  | [], acc => if acc = [] then [] else [acc.reverse]
  | c :: rest, acc =>
      if isSpaceChar c then
        if acc = [] then splitLoop rest [] else acc.reverse :: splitLoop rest []
      else splitLoop rest (c :: acc)

/-- Python `str.split()`: split on runs of whitespace, dropping empty pieces. -/
def pySplit (l : List Char) : List (List Char) := splitLoop l []

/-- Python `str.strip()`: drop leading and trailing whitespace. -/
def pyStrip (l : List Char) : List Char :=
  ((l.dropWhile isSpaceChar).reverse.dropWhile isSpaceChar).reverse

/-! ## MetricsCalculator -/

/-- Count of positions where the zipped word lists disagree, as in
`sum(1 for orig, corr in zip(original_words, corrected_words) if orig != corr)`. -/
def countMismatch (xs ys : List (List Char)) : ℕ :=
  (xs.zip ys).countP (fun p => decide (p.1 ≠ p.2))

/-- The truncation step of `calculate_accuracy`: when the word counts
differ, both lists are cut to the shorter length. -/
def truncPair (ow cw : List (List Char)) : List (List Char) × List (List Char) :=
  if ow.length ≠ cw.length then
    (ow.take (min ow.length cw.length), cw.take (min ow.length cw.length))
  else (ow, cw)

/-- `MetricsCalculator.calculate_accuracy`, embedded from
src/utils/metrics_calculator.py lines 13-33. -/
def calculate_accuracy (original corrected : List Char) : ℚ :=
  if original = [] then 100
  else
    let ow := (truncPair (pySplit original) (pySplit corrected)).1
    let cw := (truncPair (pySplit original) (pySplit corrected)).2
    if ow = [] then 100
    else min (((countMismatch ow cw : ℚ) / (ow.length : ℚ)) * 100) 100

/-- Whether or not the lengths differ, `truncPair` is truncation to
the shorter length. -/
theorem truncPair_eq (ow cw : List (List Char)) :
    truncPair ow cw =
      (ow.take (min ow.length cw.length), cw.take (min ow.length cw.length)) := by
  unfold truncPair
  by_cases h : ow.length = cw.length
  · simp only [h, ne_eq, not_true_eq_false, if_false]
    rw [min_self, ← h, List.take_length, h, List.take_length]
  · simp [h]

/-- The accuracy formula as literally worded by the claim: positional
mismatches over the truncated sequences, divided by the word count of
the whole original text, times 100, clamped at 100, with 100 for a
blank original. Stated for comparison with `calculate_accuracy`. -/
def accuracy_claimed (original corrected : List Char) : ℚ :=
  if pySplit original = [] then 100
  else
    let ow := pySplit original
    let cw := pySplit corrected
    let m := min ow.length cw.length
    min (((countMismatch (ow.take m) (cw.take m) : ℚ) / (ow.length : ℚ)) * 100) 100

/-- Python `round` to the nearest integer, ties to even. -/
def pyRoundInt (q : ℚ) : ℤ :=
  let f : ℤ := ⌊q⌋
  let r : ℚ := q - (f : ℚ)
  if r < 1/2 then f
  else if 1/2 < r then f + 1
  else if f % 2 = 0 then f else f + 1

/-- Python `round(q, 2)`. -/
def pyRound2 (q : ℚ) : ℚ := ((pyRoundInt (q * 100) : ℚ)) / 100

/-- Result record of `MetricsCalculator.calculate_error_rate`. -/
structure ErrorRateResult where
  error_rate : ℚ
  accuracy_rate : ℚ
  errors_corrected : ℕ
deriving DecidableEq, Repr

/-- `MetricsCalculator.calculate_error_rate`, embedded from
src/utils/metrics_calculator.py lines 91-114. -/
def calculate_error_rate (original corrected : List Char) : ErrorRateResult :=
  let ow := pySplit original
  let cw := pySplit corrected
  let total := ow.length
  if total = 0 then ⟨0, 100, 0⟩
  else
    let m := min ow.length cw.length
    let errors := countMismatch (ow.take m) (cw.take m)
      + ((ow.length - cw.length) + (cw.length - ow.length))
    let rate : ℚ := ((errors : ℚ) / (total : ℚ)) * 100
    ⟨pyRound2 rate, pyRound2 (100 - rate), errors⟩

/-! ## Claim C1 -/

/-- C1 counterexample: for original text consisting of the words a b
and corrected text c, the code truncates to one word and divides by
the truncated count, returning 100, while the formula as worded by the
claim divides by the two words of the original text and returns 50. -/
theorem C1_counterexample :
    calculate_accuracy (['a', ' ', 'b']) (['c']) = 100 ∧
    accuracy_claimed (['a', ' ', 'b']) (['c']) = 50 ∧
    calculate_accuracy (['a', ' ', 'b']) (['c']) ≠
      accuracy_claimed (['a', ' ', 'b']) (['c']) := by
  have h1 : calculate_accuracy (['a', ' ', 'b']) (['c']) = 100 := by
    simp +decide [calculate_accuracy, truncPair, pySplit, splitLoop, isSpaceChar,
      countMismatch]
  have h2 : accuracy_claimed (['a', ' ', 'b']) (['c']) = 50 := by
    simp +decide [accuracy_claimed, pySplit, splitLoop, isSpaceChar, countMismatch]
    norm_num
  exact ⟨h1, h2, by rw [h1, h2]; norm_num⟩

/-- C1 (amended): after truncating both word sequences to the shorter
length, the result is the mismatch count divided by the compared
(truncated) word count, times 100, clamped at 100; it is 100 whenever
the original is empty or has zero words, and also whenever the
corrected text has zero words. -/
theorem C1_accuracy_amended :
    (∀ c, calculate_accuracy [] c = 100) ∧
    (∀ o c, pySplit o = [] → calculate_accuracy o c = 100) ∧
    (∀ o c, pySplit c = [] → calculate_accuracy o c = 100) ∧
    (∀ o c, calculate_accuracy o c ≤ 100) ∧
    (∀ o c, pySplit o ≠ [] → pySplit c ≠ [] →
      calculate_accuracy o c =
        min (((countMismatch ((pySplit o).take (min (pySplit o).length (pySplit c).length))
                ((pySplit c).take (min (pySplit o).length (pySplit c).length)) : ℚ) /
              ((min (pySplit o).length (pySplit c).length : ℕ) : ℚ)) * 100) 100) := by
  have hsplit_nil : pySplit ([] : List Char) = [] := rfl
  have hkey : ∀ o c : List Char, o ≠ [] →
      calculate_accuracy o c =
        (if (pySplit o).take (min (pySplit o).length (pySplit c).length) = [] then (100 : ℚ)
         else min (((countMismatch
                ((pySplit o).take (min (pySplit o).length (pySplit c).length))
                ((pySplit c).take (min (pySplit o).length (pySplit c).length)) : ℚ) /
              ((((pySplit o).take (min (pySplit o).length (pySplit c).length)).length : ℕ) : ℚ))
            * 100) 100) := by
    intro o c ho
    unfold calculate_accuracy
    rw [truncPair_eq]
    simp only [if_neg ho]
  refine ⟨?_, ?_, ?_, ?_, ?_⟩
  · intro c; simp [calculate_accuracy]
  · intro o c h
    by_cases ho : o = []
    · simp [calculate_accuracy, ho]
    · rw [hkey o c ho, h]
      simp
  · intro o c h
    by_cases ho : o = []
    · simp [calculate_accuracy, ho]
    · rw [hkey o c ho, h]
      simp
  · intro o c
    by_cases ho : o = []
    · simp [calculate_accuracy, ho]
    · rw [hkey o c ho]
      by_cases hz : (pySplit o).take (min (pySplit o).length (pySplit c).length) = []
      · simp [hz]
      · simp only [if_neg hz]
        exact min_le_right _ _
  · intro o c ho hc
    have hone : o ≠ [] := fun h => ho (by simp [h, hsplit_nil])
    have h1 : 0 < (pySplit o).length := List.length_pos.mpr ho
    have h2 : 0 < (pySplit c).length := List.length_pos.mpr hc
    have htk : (pySplit o).take (min (pySplit o).length (pySplit c).length) ≠ [] := by
      intro h
      have hl := congrArg List.length h
      rw [List.length_take] at hl
      simp only [List.length_nil] at hl
      omega
    rw [hkey o c hone, if_neg htk, List.length_take]
    norm_num

/-- Witness for C1: the amended statement evaluated at concrete inputs. -/
theorem C1_accuracy_amended_witness :
    calculate_accuracy [] (['c']) = 100 ∧
    calculate_accuracy ([' ']) (['c']) = 100 ∧
    calculate_accuracy (['a']) ([' ']) = 100 ∧
    calculate_accuracy (['a', ' ', 'b']) (['c', ' ', 'd']) ≤ 100 ∧
    calculate_accuracy (['a', ' ', 'b']) (['c', ' ', 'd']) =
      min (((countMismatch
              ((pySplit (['a', ' ', 'b'])).take
                (min (pySplit (['a', ' ', 'b'])).length (pySplit (['c', ' ', 'd'])).length))
              ((pySplit (['c', ' ', 'd'])).take
                (min (pySplit (['a', ' ', 'b'])).length (pySplit (['c', ' ', 'd'])).length)) : ℚ) /
            ((min (pySplit (['a', ' ', 'b'])).length (pySplit (['c', ' ', 'd'])).length : ℕ) : ℚ))
          * 100) 100 :=
  ⟨C1_accuracy_amended.1 (['c']),
    C1_accuracy_amended.2.1 ([' ']) (['c']) (by decide),
    C1_accuracy_amended.2.2.1 (['a']) ([' ']) (by decide),
    C1_accuracy_amended.2.2.2.1 (['a', ' ', 'b']) (['c', ' ', 'd']),
    C1_accuracy_amended.2.2.2.2 (['a', ' ', 'b']) (['c', ' ', 'd']) (by decide) (by decide)⟩

/-! ## Claim C9 -/

/-- C9: `calculate_error_rate` does not clamp. With original a (one
word) and corrected b c d (three words, more than twice as many), the
error count is one mismatch plus two extra words, giving an error rate
of 300 (above 100) and an accuracy rate of -200 (negative). -/
theorem C9_error_rate_unclamped :
    calculate_error_rate (['a']) (['b', ' ', 'c', ' ', 'd']) =
      ⟨300, -200, 3⟩ ∧
    (pySplit (['b', ' ', 'c', ' ', 'd'])).length > 2 * (pySplit (['a'])).length ∧
    (100 : ℚ) < 300 ∧ (-200 : ℚ) < 0 := by
  refine ⟨?_, by decide, by norm_num, by norm_num⟩
  simp +decide [calculate_error_rate, pySplit, splitLoop, isSpaceChar, countMismatch]
  norm_num [pyRound2, pyRoundInt]

/-! ## CorrectionEngine: data model and abstract collaborators -/

/-- Suggestion kind tags used by the pipeline stages. -/
inductive SuggKind
  | spelling
  | grammar
  | punctuation
  | fluency
deriving DecidableEq

/-- A pipeline suggestion record. -/
structure Suggestion where
  original : List Char
  corrected : List Char
  kind : SuggKind
  confidence : ℚ
deriving DecidableEq

/-- An abstract regex rewrite rule, as stored in the grammar and
fluency tables: search tells whether the pattern occurs in a text and
sub performs the global substitution. The regex engine itself is
external to the repository, so both are opaque functions. -/
structure RewriteRule where
  search : List Char → Bool
  sub : List Char → List Char
  confidence : ℚ

/-- The abstract dictionary spell checker (the pyspellchecker package
is external to the repository): a membership test and a
best-correction query that may return nothing. -/
structure Speller where
  known : List Char → Bool
  correction : List Char → Option (List Char)

/-- Word-character test for the regex class excluding non word
characters. -/
def isWordChar (c : Char) : Bool := c.isAlphanum || c = '_'

/-- The cleaned form of a token used for dictionary lookups:
lower-cased and restricted to word characters. -/
def cleanWord (w : List Char) : List Char := (w.map Char.toLower).filter isWordChar

/-- Loop of `CorrectionEngine._preserve_case_and_punct`: walk the
original token; alphabetic characters take the next character of the
lower-cased correction with the original case reapplied; non
alphabetic characters are copied; leftover correction characters are
appended. -/
def preserveLoop : List Char → List Char → List Char
  | [], rem => rem
  | ch :: orig, rem =>
      if ch.isAlpha then
        match rem with
        | c :: rem2 => (if ch.isUpper then c.toUpper else c) :: preserveLoop orig rem2
        | [] => preserveLoop orig []
      else ch :: preserveLoop orig rem

/-- `CorrectionEngine._preserve_case_and_punct`, embedded from
src/utils/correction_engine.py lines 174-197. -/
def preserve_case_and_punct (original corrected : List Char) : List Char :=
  if original = [] ∨ corrected = [] then corrected
  else preserveLoop original (corrected.map Char.toLower)

/-- Per-token body of the spelling stage loop. -/
def spellWord (sp : Speller) (word : List Char) : List Char × List Suggestion :=
  let clean := cleanWord word
  if clean ≠ [] ∧ sp.known clean = false then
    match sp.correction clean with
    | some corr =>
        if corr ≠ [] ∧ corr ≠ clean then
          let cw := preserve_case_and_punct word corr
          (cw, [⟨word, cw, SuggKind.spelling, 8/10⟩])
        else (word, [])
    | none => (word, [])
  else (word, [])

/-- `CorrectionEngine._correct_spelling`, embedded from
src/utils/correction_engine.py lines 45-75. The threshold parameter
is accepted and never used, exactly as in the source. -/
def correct_spelling (sp : Speller) (text : List Char) (_threshold : ℚ) :
    List Char × List Suggestion :=
  let results := (pySplit text).map (spellWord sp)
  (List.intercalate ([' ']) (results.map Prod.fst), (results.map Prod.snd).flatten)

/-- `CorrectionEngine._correct_grammar`, embedded from
src/utils/correction_engine.py lines 77-109; the TextBlob correction
pass is the opaque parameter blob. -/
def correct_grammar (blob : List Char → List Char) (rules : List RewriteRule)
    (text : List Char) (_threshold : ℚ) : List Char × List Suggestion :=
  let ctext := blob text
  let s0 : List Suggestion :=
    if ctext ≠ text then [⟨text, ctext, SuggKind.grammar, 3/4⟩] else []
  rules.foldl (fun st r =>
    if r.search st.1 then
      let new := r.sub st.1
      if new ≠ st.1 then (new, st.2 ++ [⟨st.1, new, SuggKind.grammar, r.confidence⟩])
      else (new, st.2)
    else st) (ctext, s0)

/-! ## Punctuation stage (concrete regexes of the source) -/

/-- The punctuation class of the first punctuation sub-rule. -/
def isPunctA (c : Char) : Bool :=
  c = '.' || c = '!' || c = '?' || c = ',' || c = ':' || c = ';'

/-- Global substitution inserting a space after punctuation that is
immediately followed by a letter. -/
def fixSpace : List Char → List Char
  | [] => []
  | [c] => [c]
  | c1 :: c2 :: rest =>
      if isPunctA c1 && c2.isAlpha then c1 :: ' ' :: fixSpace (c2 :: rest)
      else c1 :: fixSpace (c2 :: rest)

/-- Search test of the first punctuation sub-rule. -/
def searchPL : List Char → Bool
  | [] => false
  | [_] => false
  | c1 :: c2 :: rest => (isPunctA c1 && c2.isAlpha) || searchPL (c2 :: rest)

/-- Global substitution collapsing every run of two or more
whitespace characters to one space. -/
def collapseSpaces : List Char → List Char
  | [] => []
  | [c] => [c]
  | c1 :: c2 :: rest =>
      if isSpaceChar c1 && isSpaceChar c2 then
        ' ' :: collapseSpaces (rest.dropWhile isSpaceChar)
      else c1 :: collapseSpaces (c2 :: rest)
termination_by l => l.length
decreasing_by
  · have := (List.dropWhile_sublist (l := rest) isSpaceChar).length_le
    simp only [List.length_cons]
    omega
  · simp

/-- Search test of the second punctuation sub-rule. -/
def searchMS : List Char → Bool
  | [] => false
  | [_] => false
  | c1 :: c2 :: rest => (isSpaceChar c1 && isSpaceChar c2) || searchMS (c2 :: rest)

/-- Python endswith on the three sentence-final marks. -/
def endsPunct3 (l : List Char) : Bool :=
  match l.getLast? with
  | some c => c = '.' || c = '!' || c = '?'
  | none => false

/-- First punctuation sub-rule with its suggestion bookkeeping. -/
def pStep1 (st : List Char × List Suggestion) : List Char × List Suggestion :=
  if searchPL st.1 then
    (fixSpace st.1, st.2 ++ [⟨st.1, fixSpace st.1, SuggKind.punctuation, 9/10⟩])
  else st

/-- Second punctuation sub-rule with its suggestion bookkeeping. -/
def pStep2 (st : List Char × List Suggestion) : List Char × List Suggestion :=
  if searchMS st.1 then
    (collapseSpaces st.1, st.2 ++ [⟨st.1, collapseSpaces st.1, SuggKind.punctuation, 19/20⟩])
  else st

/-- Third punctuation sub-rule with its suggestion bookkeeping. -/
def pStep3 (st : List Char × List Suggestion) : List Char × List Suggestion :=
  if st.1 ≠ [] ∧ endsPunct3 (pyStrip st.1) = false then
    (pyStrip st.1 ++ ['.'], st.2 ++ [⟨st.1, pyStrip st.1 ++ ['.'], SuggKind.punctuation, 8/10⟩])
  else st

/-- `CorrectionEngine._correct_punctuation`, embedded from
src/utils/correction_engine.py lines 111-151: the three sub-rules in
order, each on the previous text. The threshold parameter is accepted
and never used, exactly as in the source. -/
def correct_punctuation (text : List Char) (_threshold : ℚ) :
    List Char × List Suggestion :=
  pStep3 (pStep2 (pStep1 (text, [])))

/-! ## Fluency stage and the full pipeline -/

/-- One fluency-pattern iteration of `CorrectionEngine._improve_fluency`:
the substitution is applied whenever the pattern occurs; the
suggestion is recorded only when the text changed and the pattern
confidence reaches the threshold. -/
def fluencyStep (t : ℚ) (st : List Char × List Suggestion) (p : RewriteRule) :
    List Char × List Suggestion :=
  if p.search st.1 then
    let new := p.sub st.1
    if new ≠ st.1 ∧ t ≤ p.confidence then
      (new, st.2 ++ [⟨st.1, new, SuggKind.fluency, p.confidence⟩])
    else (new, st.2)
  else st

/-- `CorrectionEngine._improve_fluency`, embedded from
src/utils/correction_engine.py lines 153-172. -/
def improve_fluency (pats : List RewriteRule) (text : List Char) (t : ℚ) :
    List Char × List Suggestion :=
  pats.foldl (fluencyStep t) (text, [])

/-- Stage names accepted by `correct_text`. -/
inductive Stage
  | Spelling
  | Grammar
  | Punctuation
  | Fluency
deriving DecidableEq

/-- The abstract collaborators loaded at engine construction. -/
structure Engine where
  speller : Speller
  blob : List Char → List Char
  grammarRules : List RewriteRule
  fluencyPatterns : List RewriteRule

/-- `CorrectionEngine.correct_text`, embedded from
src/utils/correction_engine.py lines 21-43: the four stages run in
fixed order, each on the previous output, each only when enabled. -/
def correct_text (e : Engine) (text : List Char) (types : List Stage) (t : ℚ) :
    List Char × List Suggestion :=
  let st0 := (text, ([] : List Suggestion))
  let st1 := if Stage.Spelling ∈ types then
      ((correct_spelling e.speller st0.1 t).1, st0.2 ++ (correct_spelling e.speller st0.1 t).2)
    else st0
  let st2 := if Stage.Grammar ∈ types then
      ((correct_grammar e.blob e.grammarRules st1.1 t).1,
        st1.2 ++ (correct_grammar e.blob e.grammarRules st1.1 t).2)
    else st1
  let st3 := if Stage.Punctuation ∈ types then
      ((correct_punctuation st2.1 t).1, st2.2 ++ (correct_punctuation st2.1 t).2)
    else st2
  if Stage.Fluency ∈ types then
    ((improve_fluency e.fluencyPatterns st3.1 t).1,
      st3.2 ++ (improve_fluency e.fluencyPatterns st3.1 t).2)
  else st3

/-! ## Claim C7 -/

/-- C7: with no stages enabled, `correct_text` is the identity on the
text and returns no suggestions, for every engine, text and
threshold. -/
theorem C7_empty_stages_identity :
    ∀ (e : Engine) (text : List Char) (t : ℚ),
      correct_text e text [] t = (text, []) := by
  intro e text t
  simp [correct_text]

/-! ## Claim C2 -/

/-- The text output of a fluency iteration ignores the threshold. -/
theorem fluencyStep_fst (t : ℚ) (st : List Char × List Suggestion) (p : RewriteRule) :
    (fluencyStep t st p).1 = if p.search st.1 then p.sub st.1 else st.1 := by
  unfold fluencyStep
  by_cases h : p.search st.1
  · simp only [h, if_true]
    by_cases h2 : p.sub st.1 ≠ st.1 ∧ t ≤ p.confidence
    · rw [if_pos h2]
    · rw [if_neg h2]
  · simp [h]

/-- Folding the fluency steps yields the same text for any two
thresholds and any two suggestion accumulators. -/
theorem fluency_fold_fst (pats : List RewriteRule) :
    ∀ (x : List Char) (t1 t2 : ℚ) (s1 s2 : List Suggestion),
      (pats.foldl (fluencyStep t1) (x, s1)).1 = (pats.foldl (fluencyStep t2) (x, s2)).1 := by
  induction pats with
  | nil => intro x t1 t2 s1 s2; rfl
  | cons p ps ih =>
      intro x t1 t2 s1 s2
      simp only [List.foldl_cons]
      have h1 : fluencyStep t1 (x, s1) p =
          ((fluencyStep t1 (x, s1) p).1, (fluencyStep t1 (x, s1) p).2) := rfl
      have h2 : fluencyStep t2 (x, s2) p =
          ((fluencyStep t2 (x, s2) p).1, (fluencyStep t2 (x, s2) p).2) := rfl
      rw [h1, h2, fluencyStep_fst, fluencyStep_fst]
      exact ih _ t1 t2 _ _

/-- Every suggestion accumulated by the fluency fold clears the
threshold, provided the starting accumulator does. -/
theorem fluency_fold_conf (t : ℚ) (pats : List RewriteRule) :
    ∀ (st : List Char × List Suggestion),
      (∀ s ∈ st.2, t ≤ s.confidence) →
      ∀ s ∈ (pats.foldl (fluencyStep t) st).2, t ≤ s.confidence := by
  induction pats with
  | nil => intro st h s hs; exact h s hs
  | cons p ps ih =>
      intro st h s hs
      refine ih (fluencyStep t st p) ?_ s hs
      intro s2 hs2
      unfold fluencyStep at hs2
      by_cases hsearch : p.search st.1
      · simp only [hsearch, if_true] at hs2
        by_cases hgate : p.sub st.1 ≠ st.1 ∧ t ≤ p.confidence
        · rw [if_pos hgate] at hs2
          simp only [List.mem_append, List.mem_singleton] at hs2
          rcases hs2 with hin | heq
          · exact h s2 hin
          · rw [heq]
            exact hgate.2
        · rw [if_neg hgate] at hs2
          exact h s2 hs2
      · simp only [hsearch, if_false] at hs2
        exact h s2 hs2

/-- Every suggestion emitted by a spelling-stage token has fixed
confidence 0.8 and the spelling kind. -/
theorem spellWord_snd (sp : Speller) (w : List Char) :
    ∀ s ∈ (spellWord sp w).2, s.confidence = 8/10 ∧ s.kind = SuggKind.spelling := by
  intro s hs
  simp only [spellWord] at hs
  split at hs
  · split at hs
    · split at hs
      · simp only [List.mem_singleton] at hs
        subst hs
        exact ⟨rfl, rfl⟩
      · simp at hs
    · simp at hs
  · simp at hs

/-- C2: the confidence threshold gates only the fluency stage. The
spelling stage ignores the threshold entirely (identical result for
any two thresholds) and emits every suggestion with fixed confidence
0.8; the fluency stage produces the same text under any two
thresholds, yet records a suggestion only when the fired pattern
confidence reaches the threshold. -/
theorem C2_threshold_gating :
    (∀ (sp : Speller) (text : List Char) (t1 t2 : ℚ),
      correct_spelling sp text t1 = correct_spelling sp text t2) ∧
    (∀ (sp : Speller) (text : List Char) (t : ℚ),
      ∀ s ∈ (correct_spelling sp text t).2,
        s.confidence = 8/10 ∧ s.kind = SuggKind.spelling) ∧
    (∀ (pats : List RewriteRule) (text : List Char) (t1 t2 : ℚ),
      (improve_fluency pats text t1).1 = (improve_fluency pats text t2).1) ∧
    (∀ (pats : List RewriteRule) (text : List Char) (t : ℚ),
      ∀ s ∈ (improve_fluency pats text t).2, t ≤ s.confidence) := by
  refine ⟨fun sp text t1 t2 => rfl, ?_, ?_, ?_⟩
  · intro sp text t s hs
    unfold correct_spelling at hs
    simp only [List.mem_flatten, List.mem_map] at hs
    obtain ⟨l, ⟨r, ⟨w, _, hr⟩, hl⟩, hsl⟩ := hs
    rw [← hr] at hl
    rw [← hl] at hsl
    exact spellWord_snd sp w s hsl
  · intro pats text t1 t2
    exact fluency_fold_fst pats text t1 t2 [] []
  · intro pats text t s hs
    exact fluency_fold_conf t pats (text, []) (by intro s2 hs2; simp at hs2) s hs

/-- A concrete speller for the witness: it knows only the word the
and corrects everything to it. -/
def demoSpeller : Speller :=
  ⟨fun w => w == (['t', 'h', 'e']), fun _ => some (['t', 'h', 'e'])⟩

/-- A concrete fluency pattern for the witness. -/
def demoPat : RewriteRule :=
  ⟨fun l => l == (['v']), fun _ => (['w']), 1⟩

/-- The spelling suggestion produced by the witness run. -/
def demoSpellSugg : Suggestion :=
  ⟨['t', 'e', 'h'], ['t', 'h', 'e'], SuggKind.spelling, 8/10⟩

/-- The fluency suggestion produced by the witness run. -/
def demoFluencySugg : Suggestion := ⟨['v'], ['w'], SuggKind.fluency, 1⟩

/-- Witness for C2: the membership hypotheses discharged on a
concrete speller, pattern table, text and threshold. -/
theorem C2_threshold_gating_witness :
    (demoSpellSugg.confidence = 8/10 ∧ demoSpellSugg.kind = SuggKind.spelling) ∧
    (0 : ℚ) ≤ demoFluencySugg.confidence := by
  constructor
  · refine C2_threshold_gating.2.1 demoSpeller (['t', 'e', 'h']) 0 demoSpellSugg ?_
    simp +decide [correct_spelling, spellWord, demoSpeller, pySplit, splitLoop, isSpaceChar,
      cleanWord, isWordChar, preserve_case_and_punct, preserveLoop, demoSpellSugg]
  · refine C2_threshold_gating.2.2.2 [demoPat] (['v']) 0 demoFluencySugg ?_
    simp +decide [improve_fluency, fluencyStep, demoPat, demoFluencySugg]

/-! ## Punctuation stage invariants -/

/-- Absence of a first-sub-rule match site: the pair is not
punctuation followed by a letter. -/
def noPL (a b : Char) : Prop := ¬(isPunctA a = true ∧ b.isAlpha = true)

/-- Absence of a second-sub-rule match site: the pair is not two
whitespace characters. -/
def noSS (a b : Char) : Prop := ¬(isSpaceChar a = true ∧ isSpaceChar b = true)

/-- The third punctuation sub-rule in isolation. -/
def cStep (m : List Char) : List Char :=
  if m ≠ [] ∧ endsPunct3 (pyStrip m) = false then pyStrip m ++ ['.'] else m

/-- The head of a dropWhile result always fails the predicate. -/
theorem dropWhile_head_not (p : Char → Bool) :
    ∀ (l : List Char) (d : Char), (l.dropWhile p).head? = some d → p d = false
  | [], d => by simp
  | c :: rest, d => by
      intro h
      rw [List.dropWhile_cons] at h
      by_cases hc : p c = true
      · rw [if_pos hc] at h
        exact dropWhile_head_not p rest d h
      · rw [if_neg hc] at h
        simp only [List.head?_cons, Option.some_inj] at h
        subst h
        exact Bool.eq_false_iff.mpr hc

/-- dropWhile keeps every adjacency, hence preserves Chain'. -/
theorem chain'_dropWhile {R : Char → Char → Prop} (p : Char → Bool) :
    ∀ l : List Char, List.Chain' R l → List.Chain' R (l.dropWhile p)
  | [], h => by simp
  | c :: rest, h => by
      rw [List.dropWhile_cons]
      by_cases hc : p c = true
      · rw [if_pos hc]
        exact chain'_dropWhile p rest h.tail
      · rw [if_neg hc]
        exact h

/-- fixSpace keeps the first character. -/
theorem fixSpace_head? : ∀ l : List Char, (fixSpace l).head? = l.head?
  | [] => rfl
  | [c] => rfl
  | c1 :: c2 :: rest => by
      by_cases h : (isPunctA c1 && c2.isAlpha) = true
      · simp [fixSpace, h]
      · simp [fixSpace, h]

/-- The output of fixSpace never has punctuation immediately followed
by a letter. -/
theorem fixSpace_chain : ∀ l : List Char, List.Chain' noPL (fixSpace l)
  | [] => by simp [fixSpace]
  | [c] => by simp [fixSpace]
  | c1 :: c2 :: rest => by
      have ih := fixSpace_chain (c2 :: rest)
      by_cases h : (isPunctA c1 && c2.isAlpha) = true
      · rw [show fixSpace (c1 :: c2 :: rest) = c1 :: ' ' :: fixSpace (c2 :: rest) from by
          simp [fixSpace, h]]
        refine List.chain'_cons'.mpr ⟨?_, List.chain'_cons'.mpr ⟨?_, ih⟩⟩
        · intro y hy
          simp only [List.head?_cons, Option.mem_def, Option.some_inj] at hy
          subst hy
          intro hc
          exact absurd hc.2 (by decide)
        · intro y _
          intro hc
          exact absurd hc.1 (by decide)
      · rw [show fixSpace (c1 :: c2 :: rest) = c1 :: fixSpace (c2 :: rest) from by
          simp [fixSpace, h]]
        refine List.chain'_cons'.mpr ⟨?_, ih⟩
        intro y hy
        rw [fixSpace_head? (c2 :: rest)] at hy
        simp only [List.head?_cons, Option.mem_def, Option.some_inj] at hy
        subst hy
        intro hc
        rw [Bool.and_eq_true] at h
        exact h ⟨hc.1, hc.2⟩

/-- fixSpace is the identity on texts with no match site. -/
theorem fixSpace_eq_self : ∀ l : List Char, List.Chain' noPL l → fixSpace l = l
  | [], _ => rfl
  | [c], _ => rfl
  | c1 :: c2 :: rest, h => by
      have hrel : noPL c1 c2 := (List.chain'_cons.mp h).1
      have hcond : ¬((isPunctA c1 && c2.isAlpha) = true) := by
        rw [Bool.and_eq_true]
        exact hrel
      rw [show fixSpace (c1 :: c2 :: rest) = c1 :: fixSpace (c2 :: rest) from by
        simp [fixSpace, hcond]]
      rw [fixSpace_eq_self (c2 :: rest) (List.chain'_cons.mp h).2]

/-- A failed search for the first sub-rule means no match site. -/
theorem searchPL_eq_false : ∀ l : List Char, searchPL l = false → List.Chain' noPL l
  | [], _ => by simp
  | [c], _ => by simp
  | c1 :: c2 :: rest, h => by
      rw [show searchPL (c1 :: c2 :: rest) =
          ((isPunctA c1 && c2.isAlpha) || searchPL (c2 :: rest)) from rfl] at h
      rw [Bool.or_eq_false_iff] at h
      refine List.chain'_cons.mpr ⟨?_, searchPL_eq_false (c2 :: rest) h.2⟩
      intro hc
      rw [Bool.and_eq_false_iff] at h
      rcases h.1 with h1 | h1
      · rw [hc.1] at h1; exact absurd h1 (by decide)
      · rw [hc.2] at h1; exact absurd h1 (by decide)

/-- The head of a collapseSpaces output is the input head or the
space written for a collapsed run, the latter only when the input
head is whitespace. -/
theorem collapse_head : ∀ (c : Char) (l : List Char),
    (collapseSpaces (c :: l)).head? = some c ∨
    ((collapseSpaces (c :: l)).head? = some ' ' ∧ isSpaceChar c = true)
  | c, [] => Or.inl (by rw [collapseSpaces]; rfl)
  | c1, c2 :: rest => by
      by_cases h : (isSpaceChar c1 && isSpaceChar c2) = true
      · right
        rw [show collapseSpaces (c1 :: c2 :: rest) =
            ' ' :: collapseSpaces (rest.dropWhile isSpaceChar) from by
          rw [collapseSpaces]; rw [if_pos h]]
        exact ⟨rfl, (Bool.and_eq_true_iff.mp h).1⟩
      · left
        rw [show collapseSpaces (c1 :: c2 :: rest) =
            c1 :: collapseSpaces (c2 :: rest) from by
          rw [collapseSpaces]; rw [if_neg h]]
        rfl

/-- The output of collapseSpaces never has two adjacent whitespace
characters. -/
theorem collapse_chain : ∀ l : List Char, List.Chain' noSS (collapseSpaces l)
  | [] => by simp [collapseSpaces]
  | [c] => by simp [collapseSpaces]
  | c1 :: c2 :: rest => by
      by_cases h : (isSpaceChar c1 && isSpaceChar c2) = true
      · rw [show collapseSpaces (c1 :: c2 :: rest) =
            ' ' :: collapseSpaces (rest.dropWhile isSpaceChar) from by
          rw [collapseSpaces]; rw [if_pos h]]
        refine List.chain'_cons'.mpr ⟨?_, collapse_chain (rest.dropWhile isSpaceChar)⟩
        intro y hy
        cases hr : rest.dropWhile isSpaceChar with
        | nil => rw [hr] at hy; simp [collapseSpaces] at hy
        | cons d tail =>
            rw [hr] at hy
            have hd : isSpaceChar d = false := by
              have := dropWhile_head_not isSpaceChar rest d
              rw [hr] at this
              exact this rfl
            rcases collapse_head d tail with hh | hh
            · rw [hh] at hy
              simp only [Option.mem_def, Option.some_inj] at hy
              subst hy
              intro hc
              rw [hd] at hc
              exact absurd hc.2 (by decide)
            · rw [hd] at hh
              exact absurd hh.2 (by decide)
      · rw [show collapseSpaces (c1 :: c2 :: rest) =
            c1 :: collapseSpaces (c2 :: rest) from by
          rw [collapseSpaces]; rw [if_neg h]]
        refine List.chain'_cons'.mpr ⟨?_, collapse_chain (c2 :: rest)⟩
        intro y hy
        rcases collapse_head c2 rest with hh | hh
        · rw [hh] at hy
          simp only [Option.mem_def, Option.some_inj] at hy
          subst hy
          intro hc
          rw [Bool.and_eq_true] at h
          exact h ⟨hc.1, hc.2⟩
        · rw [hh.1] at hy
          simp only [Option.mem_def, Option.some_inj] at hy
          subst hy
          intro hc
          rw [Bool.and_eq_true] at h
          exact h ⟨hc.1, hh.2⟩
termination_by l => l.length
decreasing_by
  · have := (List.dropWhile_sublist (l := rest) isSpaceChar).length_le
    simp only [List.length_cons]
    omega
  · simp

/-- collapseSpaces is the identity on texts with no match site. -/
theorem collapse_eq_self : ∀ l : List Char, List.Chain' noSS l → collapseSpaces l = l
  | [], _ => by rw [collapseSpaces]
  | [c], _ => by rw [collapseSpaces]
  | c1 :: c2 :: rest, h => by
      have hrel : noSS c1 c2 := (List.chain'_cons.mp h).1
      have hcond : ¬((isSpaceChar c1 && isSpaceChar c2) = true) := by
        rw [Bool.and_eq_true]
        exact hrel
      rw [show collapseSpaces (c1 :: c2 :: rest) = c1 :: collapseSpaces (c2 :: rest) from by
        rw [collapseSpaces]; rw [if_neg hcond]]
      rw [collapse_eq_self (c2 :: rest) (List.chain'_cons.mp h).2]

/-- A failed search for the second sub-rule means no match site. -/
theorem searchMS_eq_false : ∀ l : List Char, searchMS l = false → List.Chain' noSS l
  | [], _ => by simp
  | [c], _ => by simp
  | c1 :: c2 :: rest, h => by
      rw [show searchMS (c1 :: c2 :: rest) =
          ((isSpaceChar c1 && isSpaceChar c2) || searchMS (c2 :: rest)) from rfl] at h
      rw [Bool.or_eq_false_iff] at h
      refine List.chain'_cons.mpr ⟨?_, searchMS_eq_false (c2 :: rest) h.2⟩
      intro hc
      rw [Bool.and_eq_false_iff] at h
      rcases h.1 with h1 | h1
      · rw [hc.1] at h1; exact absurd h1 (by decide)
      · rw [hc.2] at h1; exact absurd h1 (by decide)

/-- collapseSpaces cannot create a punctuation-letter adjacency. -/
theorem collapse_pres_noPL : ∀ l : List Char,
    List.Chain' noPL l → List.Chain' noPL (collapseSpaces l)
  | [], _ => by simp [collapseSpaces]
  | [c], h => by simp [collapseSpaces]
  | c1 :: c2 :: rest, h => by
      by_cases hc : (isSpaceChar c1 && isSpaceChar c2) = true
      · rw [show collapseSpaces (c1 :: c2 :: rest) =
            ' ' :: collapseSpaces (rest.dropWhile isSpaceChar) from by
          rw [collapseSpaces]; rw [if_pos hc]]
        refine List.chain'_cons'.mpr
          ⟨?_, collapse_pres_noPL (rest.dropWhile isSpaceChar)
            (chain'_dropWhile isSpaceChar rest h.tail.tail)⟩
        intro y _
        intro hx
        exact absurd hx.1 (by decide)
      · rw [show collapseSpaces (c1 :: c2 :: rest) = c1 :: collapseSpaces (c2 :: rest) from by
          rw [collapseSpaces]; rw [if_neg hc]]
        refine List.chain'_cons'.mpr ⟨?_, collapse_pres_noPL (c2 :: rest) h.tail⟩
        intro y hy
        rcases collapse_head c2 rest with hh | hh
        · rw [hh] at hy
          simp only [Option.mem_def, Option.some_inj] at hy
          subst hy
          exact (List.chain'_cons.mp h).1
        · rw [hh.1] at hy
          simp only [Option.mem_def, Option.some_inj] at hy
          subst hy
          intro hx
          exact absurd hx.2 (by decide)
termination_by l => l.length
decreasing_by
  · have := (List.dropWhile_sublist (l := rest) isSpaceChar).length_le
    simp only [List.length_cons]
    omega
  · simp

/-! ## pyStrip lemmas -/

/-- pyStrip keeps every adjacency, hence preserves Chain'. -/
theorem chain'_pyStrip {R : Char → Char → Prop} (l : List Char)
    (h : List.Chain' R l) : List.Chain' R (pyStrip l) := by
  unfold pyStrip
  have h1 : List.Chain' R (l.dropWhile isSpaceChar) := chain'_dropWhile _ _ h
  have h2 : List.Chain' (flip R) ((l.dropWhile isSpaceChar).reverse) :=
    List.chain'_reverse.mpr h1
  have h3 : List.Chain' (flip R)
      (((l.dropWhile isSpaceChar).reverse).dropWhile isSpaceChar) :=
    chain'_dropWhile _ _ h2
  exact List.chain'_reverse.mpr h3

/-- getLast? of a nonempty dropWhile output is the input getLast?. -/
theorem dropWhile_getLast? (p : Char → Bool) :
    ∀ l : List Char, l.dropWhile p ≠ [] → (l.dropWhile p).getLast? = l.getLast?
  | [], h => absurd rfl h
  | c :: rest, h => by
      rw [List.dropWhile_cons] at h ⊢
      by_cases hc : p c = true
      · rw [if_pos hc] at h ⊢
        rw [dropWhile_getLast? p rest h]
        cases hr : rest with
        | nil =>
            rw [hr] at h
            exact absurd rfl h
        | cons d tail => rw [List.getLast?_cons_cons]
      · rw [if_neg hc]

/-- The first character of a stripped text is never whitespace. -/
theorem pyStrip_head_not (l : List Char) (d : Char)
    (h : (pyStrip l).head? = some d) : isSpaceChar d = false := by
  unfold pyStrip at h
  rw [List.head?_reverse] at h
  have hne : ((l.dropWhile isSpaceChar).reverse).dropWhile isSpaceChar ≠ [] := by
    intro hx
    rw [hx] at h
    simp at h
  rw [dropWhile_getLast? _ _ hne, List.getLast?_reverse] at h
  exact dropWhile_head_not isSpaceChar l d h

/-- The last character of a stripped text is never whitespace. -/
theorem pyStrip_getLast_not (l : List Char) (d : Char)
    (h : (pyStrip l).getLast? = some d) : isSpaceChar d = false := by
  unfold pyStrip at h
  rw [List.getLast?_reverse] at h
  exact dropWhile_head_not isSpaceChar _ d h

/-- A text whose first and last characters are not whitespace is its
own stripped form. -/
theorem pyStrip_eq_self (l : List Char)
    (h1 : ∀ d, l.head? = some d → isSpaceChar d = false)
    (h2 : ∀ d, l.getLast? = some d → isSpaceChar d = false) : pyStrip l = l := by
  unfold pyStrip
  have e1 : l.dropWhile isSpaceChar = l := by
    cases l with
    | nil => rfl
    | cons c rest =>
        rw [List.dropWhile_cons, if_neg ?_]
        rw [h1 c rfl]
        simp
  rw [e1]
  have e2 : l.reverse.dropWhile isSpaceChar = l.reverse := by
    cases hr : l.reverse with
    | nil => rfl
    | cons c rest =>
        have hlast : l.getLast? = some c := by
          rw [← List.head?_reverse, hr]
          rfl
        rw [List.dropWhile_cons, if_neg ?_]
        rw [h2 c hlast]
        simp
  rw [e2, List.reverse_reverse]

/-- Stripping an all-whitespace text yields the empty text. -/
theorem pyStrip_all_space (l : List Char) (h : ∀ c ∈ l, isSpaceChar c = true) :
    pyStrip l = [] := by
  unfold pyStrip
  rw [List.dropWhile_eq_nil_iff.mpr h]
  rfl

/-- Appending a period makes the trailing-punctuation test succeed. -/
theorem endsPunct3_append_dot (x : List Char) : endsPunct3 (x ++ ['.']) = true := by
  unfold endsPunct3
  rw [List.getLast?_append_of_ne_nil x (by simp)]
  rfl

/-! ## Punctuation stage text characterization -/

/-- The first sub-rule always maps the text through fixSpace. -/
theorem pStep1_fst (st : List Char × List Suggestion) : (pStep1 st).1 = fixSpace st.1 := by
  unfold pStep1
  by_cases h : searchPL st.1 = true
  · rw [if_pos h]
  · rw [Bool.not_eq_true] at h
    rw [if_neg (by rw [h]; simp)]
    exact (fixSpace_eq_self _ (searchPL_eq_false _ h)).symm

/-- The second sub-rule always maps the text through collapseSpaces. -/
theorem pStep2_fst (st : List Char × List Suggestion) :
    (pStep2 st).1 = collapseSpaces st.1 := by
  unfold pStep2
  by_cases h : searchMS st.1 = true
  · rw [if_pos h]
  · rw [Bool.not_eq_true] at h
    rw [if_neg (by rw [h]; simp)]
    exact (collapse_eq_self _ (searchMS_eq_false _ h)).symm

/-- The third sub-rule always maps the text through cStep. -/
theorem pStep3_fst (st : List Char × List Suggestion) : (pStep3 st).1 = cStep st.1 := by
  unfold pStep3 cStep
  by_cases h : st.1 ≠ [] ∧ endsPunct3 (pyStrip st.1) = false
  · rw [if_pos h, if_pos h]
  · rw [if_neg h, if_neg h]

/-- The punctuation stage text output is the three sub-rules composed
in order. -/
theorem correct_punctuation_fst (text : List Char) (t : ℚ) :
    (correct_punctuation text t).1 = cStep (collapseSpaces (fixSpace text)) := by
  unfold correct_punctuation
  rw [pStep3_fst, pStep2_fst, pStep1_fst]

/-! ## Punctuation stage idempotence (C5) -/

/-- cStep preserves the absence of first-sub-rule match sites. -/
theorem cStep_noPL (m : List Char) (h : List.Chain' noPL m) :
    List.Chain' noPL (cStep m) := by
  unfold cStep
  split
  · refine List.chain'_append.mpr ⟨chain'_pyStrip _ h, List.chain'_singleton _, ?_⟩
    intro x _ y hy
    simp only [List.head?_cons, Option.mem_def, Option.some_inj] at hy
    subst hy
    intro hc
    exact absurd hc.2 (by decide)
  · exact h

/-- cStep preserves the absence of second-sub-rule match sites. -/
theorem cStep_noSS (m : List Char) (h : List.Chain' noSS m) :
    List.Chain' noSS (cStep m) := by
  unfold cStep
  split
  · refine List.chain'_append.mpr ⟨chain'_pyStrip _ h, List.chain'_singleton _, ?_⟩
    intro x _ y hy
    simp only [List.head?_cons, Option.mem_def, Option.some_inj] at hy
    subst hy
    intro hc
    exact absurd hc.2 (by decide)
  · exact h

/-- The trailing-period sub-rule is idempotent. -/
theorem cStep_idem (m : List Char) : cStep (cStep m) = cStep m := by
  by_cases h : m ≠ [] ∧ endsPunct3 (pyStrip m) = false
  · have he : cStep m = pyStrip m ++ ['.'] := by unfold cStep; rw [if_pos h]
    rw [he]
    have hps : pyStrip (pyStrip m ++ ['.']) = pyStrip m ++ ['.'] := by
      refine pyStrip_eq_self _ ?_ ?_
      · intro d hd
        cases hsm : pyStrip m with
        | nil =>
            rw [hsm] at hd
            simp only [List.nil_append, List.head?_cons, Option.some_inj] at hd
            subst hd
            decide
        | cons c cs =>
            rw [hsm] at hd
            simp only [List.cons_append, List.head?_cons, Option.some_inj] at hd
            subst hd
            have hh : (pyStrip m).head? = some c := by rw [hsm]; rfl
            exact pyStrip_head_not m c hh
      · intro d hd
        rw [List.getLast?_append_of_ne_nil _ (by simp)] at hd
        simp only [List.getLast?_singleton, Option.some_inj] at hd
        subst hd
        decide
    unfold cStep
    rw [if_neg ?_]
    rw [hps, endsPunct3_append_dot]
    simp
  · have he : cStep m = m := by unfold cStep; rw [if_neg h]
    rw [he, he]

/-- C5: the punctuation stage is idempotent on its text output — one
pass reaches a fixed point of all three sub-rules. -/
theorem C5_punctuation_idempotent :
    ∀ (T : List Char) (t1 t2 : ℚ),
      (correct_punctuation ((correct_punctuation T t1).1) t2).1 =
        (correct_punctuation T t1).1 := by
  intro T t1 t2
  rw [correct_punctuation_fst, correct_punctuation_fst]
  have hPL : List.Chain' noPL (cStep (collapseSpaces (fixSpace T))) :=
    cStep_noPL _ (collapse_pres_noPL _ (fixSpace_chain T))
  have hSS : List.Chain' noSS (cStep (collapseSpaces (fixSpace T))) :=
    cStep_noSS _ (collapse_chain _)
  rw [fixSpace_eq_self _ hPL, collapse_eq_self _ hSS]
  exact cStep_idem _

/-! ## Claim C10 -/

/-- Whitespace characters are not letters. -/
theorem space_not_alpha (c : Char) (h : isSpaceChar c = true) : c.isAlpha = false := by
  unfold isSpaceChar at h
  simp only [Bool.or_eq_true, decide_eq_true_eq] at h
  rcases h with ((((h | h) | h) | h) | h) | h <;> subst h <;> decide

/-- An all-whitespace text has no punctuation-letter match site. -/
theorem all_space_chain_noPL :
    ∀ l : List Char, (∀ c ∈ l, isSpaceChar c = true) → List.Chain' noPL l
  | [], _ => by simp
  | [c], _ => by simp
  | c1 :: c2 :: rest, h => by
      refine List.chain'_cons.mpr
        ⟨?_, all_space_chain_noPL (c2 :: rest) (fun c hc => h c (List.mem_cons_of_mem _ hc))⟩
      intro hc
      have h2 := space_not_alpha c2 (h c2 (by simp))
      rw [hc.2] at h2
      exact absurd h2 (by decide)

/-- collapseSpaces maps all-whitespace texts to all-whitespace texts. -/
theorem collapse_all_space :
    ∀ l : List Char, (∀ c ∈ l, isSpaceChar c = true) →
      ∀ c ∈ collapseSpaces l, isSpaceChar c = true
  | [], _ => by simp [collapseSpaces]
  | [c], h => by
      rw [collapseSpaces]
      exact h
  | c1 :: c2 :: rest, h => by
      by_cases hc : (isSpaceChar c1 && isSpaceChar c2) = true
      · rw [show collapseSpaces (c1 :: c2 :: rest) =
            ' ' :: collapseSpaces (rest.dropWhile isSpaceChar) from by
          rw [collapseSpaces]; rw [if_pos hc]]
        intro c hcm
        rcases List.mem_cons.mp hcm with hch | hct
        · subst hch; decide
        · refine collapse_all_space (rest.dropWhile isSpaceChar) ?_ c hct
          intro d hd
          exact h d (by
            have := (List.dropWhile_sublist (l := rest) isSpaceChar).subset hd
            simp [this])
      · rw [show collapseSpaces (c1 :: c2 :: rest) = c1 :: collapseSpaces (c2 :: rest) from by
          rw [collapseSpaces]; rw [if_neg hc]]
        intro c hcm
        rcases List.mem_cons.mp hcm with hch | hct
        · rw [hch]
          exact h c1 (by simp)
        · exact collapse_all_space (c2 :: rest)
            (fun d hd => h d (List.mem_cons_of_mem _ hd)) c hct
termination_by l => l.length
decreasing_by
  · have := (List.dropWhile_sublist (l := rest) isSpaceChar).length_le
    simp only [List.length_cons]
    omega
  · simp

/-- collapseSpaces never empties a nonempty text. -/
theorem collapse_ne_nil (c : Char) (l : List Char) : collapseSpaces (c :: l) ≠ [] := by
  intro hx
  rcases collapse_head c l with h | h
  · rw [hx] at h; simp at h
  · have h1 := h.1
    rw [hx] at h1
    simp at h1

/-- C10: whenever the trailing-period sub-rule fires, the stage output
is the stripped intermediate text plus a period; in particular a
nonempty all-whitespace input yields the single-character text
consisting of one period. -/
theorem C10_trailing_period :
    (∀ (T : List Char) (t : ℚ),
      collapseSpaces (fixSpace T) ≠ [] →
      endsPunct3 (pyStrip (collapseSpaces (fixSpace T))) = false →
      (correct_punctuation T t).1 = pyStrip (collapseSpaces (fixSpace T)) ++ ['.']) ∧
    (∀ (T : List Char) (t : ℚ), T ≠ [] → (∀ c ∈ T, isSpaceChar c = true) →
      (correct_punctuation T t).1 = ['.']) := by
  have hmain : ∀ (T : List Char) (t : ℚ),
      collapseSpaces (fixSpace T) ≠ [] →
      endsPunct3 (pyStrip (collapseSpaces (fixSpace T))) = false →
      (correct_punctuation T t).1 = pyStrip (collapseSpaces (fixSpace T)) ++ ['.'] := by
    intro T t h1 h2
    rw [correct_punctuation_fst]
    unfold cStep
    rw [if_pos ⟨h1, h2⟩]
  refine ⟨hmain, ?_⟩
  intro T t hne hsp
  have hfix : fixSpace T = T := fixSpace_eq_self T (all_space_chain_noPL T hsp)
  have hm2 : collapseSpaces (fixSpace T) ≠ [] := by
    rw [hfix]
    cases T with
    | nil => exact absurd rfl hne
    | cons c rest => exact collapse_ne_nil c rest
  have hm2sp : ∀ c ∈ collapseSpaces (fixSpace T), isSpaceChar c = true := by
    rw [hfix]
    exact collapse_all_space T hsp
  have hps : pyStrip (collapseSpaces (fixSpace T)) = [] := pyStrip_all_space _ hm2sp
  have := hmain T t hm2 (by rw [hps]; rfl)
  rw [hps] at this
  simpa using this

/-- Witness for C10: a two-space input maps to a single period, and a
single-letter input gets a period appended. -/
theorem C10_trailing_period_witness :
    ((correct_punctuation ([' ', ' ']) 0).1 = ['.']) ∧
    ((correct_punctuation (['a']) 0).1 =
      pyStrip (collapseSpaces (fixSpace (['a']))) ++ ['.']) := by
  constructor
  · exact C10_trailing_period.2 ([' ', ' ']) 0 (by decide) (by decide)
  · refine C10_trailing_period.1 (['a']) 0 ?_ ?_
    · rw [show fixSpace (['a']) = ['a'] from rfl]
      rw [show collapseSpaces (['a']) = ['a'] from by rw [collapseSpaces]]
      decide
    · rw [show fixSpace (['a']) = ['a'] from rfl]
      rw [show collapseSpaces (['a']) = ['a'] from by rw [collapseSpaces]]
      decide

/-! ## Levenshtein distance: reference definition and the DP table -/

/-- The textbook Levenshtein distance with unit-cost insertion,
deletion and substitution: the reference against which the dynamic
programming table of the source is verified. -/
def lev : List Char → List Char → ℕ
  | [], ys => ys.length
  | x :: xs, [] => (x :: xs).length
  | x :: xs, y :: ys =>
      min (1 + lev xs (y :: ys))
        (min (1 + lev (x :: xs) ys) ((if x = y then 0 else 1) + lev xs ys))
termination_by a b => a.length + b.length
decreasing_by all_goals (simp only [List.length_cons]; omega)

/-- The dynamic-programming table of `TextProcessor._edit_distance`
(src/utils/text_processor.py lines 107-124) as its defining
recurrence: dpEntry s1 s2 i j is the table entry dp at row i and
column j, where row i and column j with both positive compare the
characters at positions i-1 and j-1. -/
def dpEntry (s1 s2 : List Char) : ℕ → ℕ → ℕ
  | i, 0 => i
  | 0, j + 1 => j + 1
  | i + 1, j + 1 =>
      if s1.getD i ' ' = s2.getD j ' ' then dpEntry s1 s2 i j
      else 1 + min (dpEntry s1 s2 i (j + 1)) (min (dpEntry s1 s2 (i + 1) j) (dpEntry s1 s2 i j))
termination_by i j => (i, j)

/-- `TextProcessor._edit_distance`: the bottom-right table entry. -/
def edit_distance (s1 s2 : List Char) : ℕ := dpEntry s1 s2 s1.length s2.length

/-- Evaluation of lev with an empty first argument. -/
theorem lev_nil_left (l : List Char) : lev [] l = l.length := by
  cases l <;> rw [lev]

/-- Evaluation of lev with an empty second argument. -/
theorem lev_nil_right : ∀ l : List Char, lev l [] = l.length
  | [] => by rw [lev]
  | _ :: _ => by rw [lev]

/-- The cons-cons recurrence of lev. -/
theorem lev_cc (x y : Char) (xs ys : List Char) :
    lev (x :: xs) (y :: ys) =
      min (1 + lev xs (y :: ys))
        (min (1 + lev (x :: xs) ys) ((if x = y then 0 else 1) + lev xs ys)) := by
  rw [lev]

/-- lev of a list with itself is zero. -/
theorem lev_self : ∀ s : List Char, lev s s = 0
  | [] => by rw [lev_nil_left]; rfl
  | x :: xs => by
      rw [lev_cc, lev_self xs]
      simp

/-- lev is symmetric. -/
theorem lev_symm : ∀ a b : List Char, lev a b = lev b a
  | [], b => by rw [lev_nil_left, lev_nil_right]
  | a, [] => by rw [lev_nil_left, lev_nil_right]
  | x :: xs, y :: ys => by
      rw [lev_cc x y xs ys, lev_cc y x ys xs]
      rw [lev_symm xs (y :: ys), lev_symm (x :: xs) ys, lev_symm xs ys]
      have hc : (if x = y then (0 : ℕ) else 1) = (if y = x then 0 else 1) := by
        by_cases h : x = y
        · rw [if_pos h, if_pos h.symm]
        · rw [if_neg h, if_neg (fun hh => h hh.symm)]
      rw [hc]
      omega
termination_by a b => a.length + b.length
decreasing_by all_goals (simp only [List.length_cons]; omega)

/-- lev is bounded by the total length. -/
theorem lev_le_add : ∀ a b : List Char, lev a b ≤ a.length + b.length
  | [], b => by rw [lev_nil_left]; omega
  | x :: xs, [] => by rw [lev_nil_right]; omega
  | x :: xs, y :: ys => by
      rw [lev_cc]
      have h1 := lev_le_add xs (y :: ys)
      simp only [List.length_cons] at h1 ⊢
      omega
termination_by a b => a.length + b.length
decreasing_by all_goals (simp only [List.length_cons]; omega)

/-- lev dominates the length difference. -/
theorem length_le_lev : ∀ b c : List Char, c.length ≤ b.length + lev b c
  | [], c => by rw [lev_nil_left]; omega
  | x :: xs, [] => by simp
  | x :: xs, y :: ys => by
      rw [lev_cc]
      have h1 := length_le_lev xs (y :: ys)
      have h2 := length_le_lev (x :: xs) ys
      have h3 := length_le_lev xs ys
      simp only [List.length_cons] at h1 h2 h3 ⊢
      by_cases h : x = y
      · rw [if_pos h]; omega
      · rw [if_neg h]; omega
termination_by b c => b.length + c.length
decreasing_by all_goals (simp only [List.length_cons]; omega)

/-- lev satisfies the triangle inequality. -/
theorem lev_triangle : ∀ a b c : List Char, lev a c ≤ lev a b + lev b c
  | a, [], c => by
      have h1 := lev_le_add a c
      rw [lev_nil_right a, lev_nil_left c]
      omega
  | [], y :: ys, c => by
      have h1 := length_le_lev (y :: ys) c
      rw [lev_nil_left, lev_nil_left]
      omega
  | x :: xs, y :: ys, [] => by
      have h1 := length_le_lev (y :: ys) (x :: xs)
      have h2 := lev_symm (y :: ys) (x :: xs)
      rw [lev_nil_right, lev_nil_right]
      omega
  | x :: xs, y :: ys, z :: zs => by
      have hac := lev_cc x z xs zs
      have hab := lev_cc x y xs ys
      have hbc := lev_cc y z ys zs
      have I1 := lev_triangle xs (y :: ys) (z :: zs)
      have I2 := lev_triangle (x :: xs) ys (z :: zs)
      have I3 := lev_triangle (x :: xs) (y :: ys) zs
      have I4 := lev_triangle xs ys zs
      have I5 := lev_triangle (x :: xs) ys zs
      have I6 := lev_triangle xs ys (z :: zs)
      have hcost : (if x = z then (0 : ℕ) else 1) ≤
          (if x = y then (0 : ℕ) else 1) + (if y = z then (0 : ℕ) else 1) := by
        by_cases h1 : x = y
        · subst h1
          simp
        · by_cases h2 : y = z
          · subst h2
            simp [h1]
          · rw [if_neg h1, if_neg h2]
            split <;> omega
      omega
termination_by a b c => a.length + b.length + c.length
decreasing_by all_goals (simp only [List.length_cons]; omega)

/-- Deleting a freshly prepended character costs at most one. -/
theorem lev_cons_self_le (c : Char) (l : List Char) : lev (c :: l) l ≤ 1 := by
  cases l with
  | nil => rw [lev_nil_right]; simp
  | cons d t =>
      rw [lev_cc c d (d :: t) t, lev_self]
      omega

/-- Addition distributes over the minimum. -/
theorem add_min_left (c a b : ℕ) : c + min a b = min (c + a) (c + b) := by omega

set_option maxHeartbeats 1000000 in
/-- lev also satisfies the recurrence on last characters. -/
theorem lev_snoc : ∀ (u v : List Char) (x y : Char),
    lev (u ++ [x]) (v ++ [y]) =
      min (1 + lev u (v ++ [y]))
        (min (1 + lev (u ++ [x]) v) ((if x = y then 0 else 1) + lev u v))
  | [], [], x, y => by
      simp only [List.nil_append]
      rw [lev_cc]
  | [], w :: v, x, y => by
      have ih := lev_snoc [] v x y
      simp only [List.nil_append] at ih ⊢
      simp only [List.cons_append]
      rw [lev_cc x w [] (v ++ [y]), ih, lev_cc x w [] v]
      simp only [lev_nil_left]
      simp only [List.length_append, List.length_cons, List.length_nil]
      omega
  | w :: u, [], x, y => by
      have ih := lev_snoc u [] x y
      simp only [List.nil_append] at ih
      simp only [List.cons_append, List.nil_append]
      rw [lev_cc w y (u ++ [x]) [], ih, lev_cc w y u []]
      simp only [lev_nil_right]
      simp only [List.length_append, List.length_cons, List.length_nil]
      omega
  | w :: u, q :: v, x, y => by
      have ih1 := lev_snoc u (q :: v) x y
      have ih2 := lev_snoc (w :: u) v x y
      have ih3 := lev_snoc u v x y
      simp only [List.cons_append] at ih1 ih2 ih3 ⊢
      rw [lev_cc w q (u ++ [x]) (v ++ [y])]
      rw [ih1, ih2, ih3]
      rw [lev_cc w q u (v ++ [y]), lev_cc w q (u ++ [x]) v, lev_cc w q u v]
      simp only [add_min_left]
      simp only [min_assoc]
      simp only [min_comm, min_left_comm, Nat.add_comm, Nat.add_left_comm]
termination_by u v => u.length + v.length
decreasing_by all_goals (simp only [List.length_cons]; omega)

/-- lev is invariant under reversing both arguments. -/
theorem lev_reverse : ∀ a b : List Char, lev a.reverse b.reverse = lev a b
  | [], b => by
      rw [List.reverse_nil, lev_nil_left, lev_nil_left, List.length_reverse]
  | x :: xs, [] => by
      rw [List.reverse_nil, lev_nil_right, lev_nil_right, List.length_reverse]
  | x :: xs, y :: ys => by
      rw [show (x :: xs).reverse = xs.reverse ++ [x] from by simp]
      rw [show (y :: ys).reverse = ys.reverse ++ [y] from by simp]
      rw [lev_snoc]
      have e1 : lev xs.reverse (ys.reverse ++ [y]) = lev xs (y :: ys) := by
        rw [show ys.reverse ++ [y] = (y :: ys).reverse from by simp]
        exact lev_reverse xs (y :: ys)
      have e2 : lev (xs.reverse ++ [x]) ys.reverse = lev (x :: xs) ys := by
        rw [show xs.reverse ++ [x] = (x :: xs).reverse from by simp]
        exact lev_reverse (x :: xs) ys
      have e3 : lev xs.reverse ys.reverse = lev xs ys := lev_reverse xs ys
      rw [e1, e2, e3, lev_cc]
termination_by a b => a.length + b.length
decreasing_by all_goals (simp only [List.length_cons]; omega)

/-- The DP table entry at row i and column j is the Levenshtein
distance of the reversed i-prefix and the reversed j-prefix. -/
theorem dpEntry_eq_lev (s1 s2 : List Char) :
    ∀ i j : ℕ, i ≤ s1.length → j ≤ s2.length →
      dpEntry s1 s2 i j = lev ((s1.take i).reverse) ((s2.take j).reverse)
  | i, 0, hi, _ => by
      rw [dpEntry]
      rw [show (s2.take 0).reverse = [] from rfl, lev_nil_right]
      rw [List.length_reverse, List.length_take]
      omega
  | 0, j + 1, _, hj => by
      rw [dpEntry]
      rw [show (s1.take 0).reverse = [] from rfl, lev_nil_left]
      rw [List.length_reverse, List.length_take]
      omega
  | i + 1, j + 1, hi, hj => by
      have hi' : i < s1.length := by omega
      have hj' : j < s2.length := by omega
      have e1 : (s1.take (i + 1)).reverse = s1.get ⟨i, hi'⟩ :: (s1.take i).reverse := by
        rw [← List.take_concat_get s1 i hi', List.concat_eq_append, List.reverse_append]
        rfl
      have e2 : (s2.take (j + 1)).reverse = s2.get ⟨j, hj'⟩ :: (s2.take j).reverse := by
        rw [← List.take_concat_get s2 j hj', List.concat_eq_append, List.reverse_append]
        rfl
      have hg1 : s1.getD i ' ' = s1.get ⟨i, hi'⟩ := by
        rw [List.getD_eq_getElem s1 ' ' hi']
        rfl
      have hg2 : s2.getD j ' ' = s2.get ⟨j, hj'⟩ := by
        rw [List.getD_eq_getElem s2 ' ' hj']
        rfl
      have b1 := dpEntry_eq_lev s1 s2 i j (by omega) (by omega)
      have b2 := dpEntry_eq_lev s1 s2 i (j + 1) (by omega) (by omega)
      have b3 := dpEntry_eq_lev s1 s2 (i + 1) j (by omega) (by omega)
      have hle1 : lev ((s1.take i).reverse) ((s2.take j).reverse) ≤
          1 + lev ((s1.take i).reverse) ((s2.take (j + 1)).reverse) := by
        have htri := lev_triangle ((s1.take i).reverse) ((s2.take (j + 1)).reverse)
          ((s2.take j).reverse)
        have hone : lev ((s2.take (j + 1)).reverse) ((s2.take j).reverse) ≤ 1 := by
          rw [e2]
          exact lev_cons_self_le _ _
        omega
      have hle2 : lev ((s1.take i).reverse) ((s2.take j).reverse) ≤
          1 + lev ((s1.take (i + 1)).reverse) ((s2.take j).reverse) := by
        have htri := lev_triangle ((s1.take i).reverse) ((s1.take (i + 1)).reverse)
          ((s2.take j).reverse)
        have hone : lev ((s1.take i).reverse) ((s1.take (i + 1)).reverse) ≤ 1 := by
          rw [e1, lev_symm]
          exact lev_cons_self_le _ _
        omega
      rw [dpEntry, hg1, hg2, b1, b2, b3, e1, e2, lev_cc]
      rw [e1] at hle2
      rw [e2] at hle1
      by_cases h : s1.get ⟨i, hi'⟩ = s2.get ⟨j, hj'⟩
      · rw [if_pos h, if_pos h]
        omega
      · rw [if_neg h, if_neg h]
        omega
termination_by i j => (i, j)

/-- The bottom-right DP entry is exactly the Levenshtein distance. -/
theorem edit_distance_eq_lev (s1 s2 : List Char) : edit_distance s1 s2 = lev s1 s2 := by
  unfold edit_distance
  rw [dpEntry_eq_lev s1 s2 s1.length s2.length le_rfl le_rfl]
  rw [List.take_length, List.take_length]
  exact lev_reverse s1 s2

/-! ## Claim C6 -/

/-- C6: the edit distance computed by the DP table of
`TextProcessor._edit_distance` is a metric: zero on equal strings,
symmetric, and satisfying the triangle inequality. -/
theorem C6_edit_distance_metric :
    (∀ s : List Char, edit_distance s s = 0) ∧
    (∀ a b : List Char, edit_distance a b = edit_distance b a) ∧
    (∀ a b c : List Char, edit_distance a c ≤ edit_distance a b + edit_distance b c) := by
  refine ⟨?_, ?_, ?_⟩
  · intro s
    rw [edit_distance_eq_lev, lev_self]
  · intro a b
    rw [edit_distance_eq_lev, edit_distance_eq_lev, lev_symm]
  · intro a b c
    rw [edit_distance_eq_lev, edit_distance_eq_lev, edit_distance_eq_lev]
    exact lev_triangle a b c

/-! ## TextProcessor: diff records -/

/-- Correction types assigned by `TextProcessor._classify_correction`. -/
inductive RecType
  | Spelling
  | Grammar
  | Fluency
  | Capitalization
  | Punctuation
deriving DecidableEq

/-- Reason tags produced by `TextProcessor._get_correction_reason`. -/
inductive ReasonTag
  | RemovedUnnecessary
  | AddedMissing
  | FixedSpelling
  | FixedCapitalization
  | ImprovedFluency
deriving DecidableEq

/-- A correction-history record of the diff engine. -/
structure CorrectionRecord where
  original : List Char
  corrected : List Char
  rtype : RecType
  reason : ReasonTag
  confidence : ℚ
deriving DecidableEq

/-- The fixed grammar-indicator word list of
`TextProcessor._is_grammar_correction`. -/
def grammar_indicators : List (List Char) :=
  [['w', 'a', 's'], ['w', 'e', 'r', 'e'], ['i', 's'], ['a', 'r', 'e'],
    ['h', 'a', 'v', 'e'], ['h', 'a', 's'], ['h', 'a', 'd']]

/-- `TextProcessor._is_grammar_correction`, embedded from
src/utils/text_processor.py lines 76-79. -/
def is_grammar_correction (original corrected : List Char) : Bool :=
  grammar_indicators.any
    (fun w => w == original.map Char.toLower || w == corrected.map Char.toLower)

/-- `TextProcessor._classify_correction`, embedded from
src/utils/text_processor.py lines 65-74. -/
def classify_correction (original corrected : List Char) : RecType :=
  if original.length ≠ corrected.length then RecType.Spelling
  else if original.map Char.toLower = corrected.map Char.toLower then RecType.Capitalization
  else if is_grammar_correction original corrected then RecType.Grammar
  else RecType.Fluency

/-- `TextProcessor._get_correction_reason`, embedded from
src/utils/text_processor.py lines 81-93. -/
def correction_reason (original corrected : List Char) : ReasonTag :=
  if original.map Char.toLower ≠ corrected.map Char.toLower then
    if corrected.length < original.length then ReasonTag.RemovedUnnecessary
    else if original.length < corrected.length then ReasonTag.AddedMissing
    else ReasonTag.FixedSpelling
  else if original ≠ corrected then ReasonTag.FixedCapitalization
  else ReasonTag.ImprovedFluency

/-- `TextProcessor._calculate_confidence`, embedded from
src/utils/text_processor.py lines 95-105. -/
def calculate_confidence (original corrected : List Char) : ℚ :=
  if max original.length corrected.length = 0 then 1
  else
    max (1/2)
      (1 - (edit_distance original corrected : ℚ) / ((max original.length corrected.length : ℕ) : ℚ))

/-- The record built by `TextProcessor.find_differences` for one
paired deletion-insertion line. -/
def mkRecord (original corrected : List Char) : CorrectionRecord :=
  ⟨original, corrected, classify_correction original corrected,
    correction_reason original corrected, calculate_confidence original corrected⟩

/-- Does the diff line start with a minus sign. -/
def startsDash (l : List Char) : Bool :=
  match l with
  | '-' :: _ => true
  | _ => false

/-- Does the diff line start with the three-dash file header. -/
def startsTripleDash (l : List Char) : Bool :=
  match l with
  | '-' :: '-' :: '-' :: _ => true
  | _ => false

/-- Does the diff line start with a plus sign. -/
def startsPlus (l : List Char) : Bool :=
  match l with
  | '+' :: _ => true
  | _ => false

/-- The line walk of `TextProcessor.find_differences`
(src/utils/text_processor.py lines 49-61): a deletion line not
starting with three dashes, immediately followed by an insertion
line, emits one record. -/
def parseDiff : List (List Char) → List CorrectionRecord
  | [] => []
  | [_] => []
  | l1 :: l2 :: rest =>
      if startsDash l1 && !startsTripleDash l1 && startsPlus l2 then
        mkRecord (pyStrip l1.tail) (pyStrip l2.tail) :: parseDiff (l2 :: rest)
      else parseDiff (l2 :: rest)

/-- `TextProcessor.find_differences`, embedded from
src/utils/text_processor.py lines 35-63. The difflib unified diff is
external to the repository, hence the opaque udiff parameter mapping
the two token sequences to the diff line list. -/
def find_differences (udiff : List (List Char) → List (List Char) → List (List Char))
    (original corrected : List Char) : List CorrectionRecord :=
  parseDiff (udiff (pySplit original) (pySplit corrected))

/-- Every parsed record is built by mkRecord. -/
theorem parseDiff_mem : ∀ ls : List (List Char), ∀ r ∈ parseDiff ls,
    ∃ a b, r = mkRecord a b
  | [], r => by simp [parseDiff]
  | [l], r => by simp [parseDiff]
  | l1 :: l2 :: rest, r => by
      intro hr
      rw [parseDiff] at hr
      by_cases h : (startsDash l1 && !startsTripleDash l1 && startsPlus l2) = true
      · rw [if_pos h] at hr
        rcases List.mem_cons.mp hr with he | ht
        · exact ⟨pyStrip l1.tail, pyStrip l2.tail, he⟩
        · exact parseDiff_mem (l2 :: rest) r ht
      · rw [if_neg h] at hr
        exact parseDiff_mem (l2 :: rest) r hr

/-! ## Claim C3 -/

/-- C3: every record emitted by the diff engine carries the
confidence of `TextProcessor._calculate_confidence` on its own token
pair; the edit distance computed by the DP table is the exact
Levenshtein distance; the confidence equals the claimed formula
(which takes the value 1 on two empty tokens) and always lies between
one half and one. -/
theorem C3_record_confidence :
    (∀ (udiff : List (List Char) → List (List Char) → List (List Char)) (o c : List Char),
      ∀ r ∈ find_differences udiff o c,
        r.confidence = calculate_confidence r.original r.corrected) ∧
    (∀ a b : List Char, edit_distance a b = lev a b) ∧
    (∀ a b : List Char, calculate_confidence a b =
      max (1/2) (1 - (edit_distance a b : ℚ) / ((max a.length b.length : ℕ) : ℚ))) ∧
    (calculate_confidence [] [] = 1) ∧
    (∀ a b : List Char, 1/2 ≤ calculate_confidence a b ∧ calculate_confidence a b ≤ 1) := by
  have hformula : ∀ a b : List Char, calculate_confidence a b =
      max (1/2) (1 - (edit_distance a b : ℚ) / ((max a.length b.length : ℕ) : ℚ)) := by
    intro a b
    unfold calculate_confidence
    by_cases h : max a.length b.length = 0
    · rw [if_pos h]
      have ha : a = [] := List.length_eq_zero.mp (by omega)
      have hb : b = [] := List.length_eq_zero.mp (by omega)
      subst ha
      subst hb
      have he : edit_distance ([] : List Char) ([] : List Char) = 0 := by
        unfold edit_distance
        simp only [List.length_nil]
        rw [dpEntry]
      rw [he]
      have hm : ((max ([] : List Char).length ([] : List Char).length : ℕ) : ℚ) = 0 := by
        simp
      rw [hm, div_zero]
      rw [max_eq_right (by norm_num : (1 : ℚ)/2 ≤ 1 - 0)]
      norm_num
    · rw [if_neg h]
  refine ⟨?_, edit_distance_eq_lev, hformula, ?_, ?_⟩
  · intro udiff o c r hr
    obtain ⟨a, b, rfl⟩ := parseDiff_mem _ r hr
    rfl
  · unfold calculate_confidence
    rw [if_pos (by simp)]
  · intro a b
    constructor
    · rw [hformula]
      exact le_max_left _ _
    · rw [hformula]
      have hnn : (0 : ℚ) ≤ (edit_distance a b : ℚ) / ((max a.length b.length : ℕ) : ℚ) := by
        positivity
      rw [max_le_iff]
      constructor
      · norm_num
      · linarith

/-- The constant diff used to witness the record claims. -/
def demoUdiff : List (List Char) → List (List Char) → List (List Char) :=
  fun _ _ => [['-', 't', 'e', 'h'], ['+', 't', 'h', 'e']]

/-- The single record produced by the witness diff. -/
def demoRecord : CorrectionRecord := mkRecord (['t', 'e', 'h']) (['t', 'h', 'e'])

/-- Evaluation of the witness diff. -/
theorem demo_find : find_differences demoUdiff [] [] = [demoRecord] := rfl

/-- Witness for C3: the membership hypothesis discharged on the
concrete diff. -/
theorem C3_record_confidence_witness :
    demoRecord.confidence = calculate_confidence demoRecord.original demoRecord.corrected :=
  C3_record_confidence.1 demoUdiff [] [] demoRecord
    (by rw [demo_find]; exact List.mem_singleton.mpr rfl)

/-! ## Claim C4 -/

/-- The classification cascade exactly as worded by claim C4: the
Capitalization case demands a case-insensitive match that is not a
case-sensitive match. -/
def claimedType (original corrected : List Char) : RecType :=
  if original.length ≠ corrected.length then RecType.Spelling
  else if original.map Char.toLower = corrected.map Char.toLower ∧ original ≠ corrected then
    RecType.Capitalization
  else if is_grammar_correction original corrected then RecType.Grammar
  else RecType.Fluency

/-- C4: on every pair with distinct tokens — and all emitted
correction pairs are distinct — the classifier follows the claimed
cascade; every length-changing pair is Spelling and every
equal-up-to-case differing pair is Capitalization; every emitted
record carries the classifier type of its own token pair. -/
theorem C4_classification :
    (∀ o c : List Char, o ≠ c → classify_correction o c = claimedType o c) ∧
    (∀ o c : List Char, o.length ≠ c.length → classify_correction o c = RecType.Spelling) ∧
    (∀ o c : List Char, o.map Char.toLower = c.map Char.toLower → o ≠ c →
      classify_correction o c = RecType.Capitalization) ∧
    (∀ (udiff : List (List Char) → List (List Char) → List (List Char)) (o c : List Char),
      ∀ r ∈ find_differences udiff o c,
        r.rtype = classify_correction r.original r.corrected) := by
  have hlen : ∀ o c : List Char, o.map Char.toLower = c.map Char.toLower →
      o.length = c.length := by
    intro o c h
    have := congrArg List.length h
    simpa using this
  refine ⟨?_, ?_, ?_, ?_⟩
  · intro o c hne
    unfold classify_correction claimedType
    by_cases h1 : o.length ≠ c.length
    · rw [if_pos h1, if_pos h1]
    · rw [if_neg h1, if_neg h1]
      by_cases h2 : o.map Char.toLower = c.map Char.toLower
      · rw [if_pos h2, if_pos ⟨h2, hne⟩]
      · rw [if_neg h2,
          if_neg (show ¬(o.map Char.toLower = c.map Char.toLower ∧ o ≠ c) from
            fun hc => h2 hc.1)]
  · intro o c h
    unfold classify_correction
    rw [if_pos h]
  · intro o c h hne
    unfold classify_correction
    rw [if_neg (fun hc => hc (hlen o c h)), if_pos h]
  · intro udiff o c r hr
    obtain ⟨a, b, rfl⟩ := parseDiff_mem _ r hr
    rfl

/-- Witness for C4: the hypotheses discharged on concrete token
pairs and the concrete diff. -/
theorem C4_classification_witness :
    classify_correction (['T', 'e', 'h']) (['t', 'e', 'h']) =
      claimedType (['T', 'e', 'h']) (['t', 'e', 'h']) ∧
    classify_correction (['a']) (['a', 'b']) = RecType.Spelling ∧
    classify_correction (['A']) (['a']) = RecType.Capitalization ∧
    demoRecord.rtype = classify_correction demoRecord.original demoRecord.corrected := by
  refine ⟨?_, ?_, ?_, ?_⟩
  · exact C4_classification.1 _ _ (by decide)
  · exact C4_classification.2.1 _ _ (by decide)
  · exact C4_classification.2.2.1 _ _ (by decide) (by decide)
  · exact C4_classification.2.2.2 demoUdiff [] [] demoRecord
      (by rw [demo_find]; exact List.mem_singleton.mpr rfl)

/-! ## MetricsCalculator: readability and fluency -/

/-- The sentence-terminating class of the sentence splitter. -/
def isSentencePunct (c : Char) : Bool := c = '.' || c = '!' || c = '?'

/-- The regex split on runs of sentence punctuation: segment list
with empty segments kept, as Python re.split produces them. -/
def splitPunctRuns : List Char → List (List Char)
  | [] => [[]]
  | c :: rest =>
      if isSentencePunct c then [] :: splitPunctRuns (rest.dropWhile isSentencePunct)
      else
        match splitPunctRuns rest with
        | s :: ss => (c :: s) :: ss
        | [] => [[c]]
termination_by l => l.length
decreasing_by
  · have := (List.dropWhile_sublist (l := rest) isSentencePunct).length_le
    simp only [List.length_cons]
    omega
  · simp

/-- `MetricsCalculator._count_sentences`: non-blank segments. -/
def count_sentences (text : List Char) : ℕ :=
  ((splitPunctRuns text).filter (fun s => decide (pyStrip s ≠ []))).length

/-- `MetricsCalculator._count_words`. -/
def count_words (text : List Char) : ℕ := (pySplit text).length

/-- Lower-case ASCII letter test for the letters-only filter. -/
def isLowerAZ (c : Char) : Bool := 'a' ≤ c && c ≤ 'z'

/-- The vowel class of the syllable counter. -/
def isVowelY (c : Char) : Bool :=
  c = 'a' || c = 'e' || c = 'i' || c = 'o' || c = 'u' || c = 'y'

/-- Number of maximal vowel-group runs. -/
def vowelGroups : List Char → ℕ
  | [] => 0
  | c :: rest =>
      if isVowelY c then 1 + vowelGroups (rest.dropWhile isVowelY)
      else vowelGroups rest
termination_by l => l.length
decreasing_by
  · have := (List.dropWhile_sublist (l := rest) isVowelY).length_le
    simp only [List.length_cons]
    omega
  · simp

/-- Per-word syllable count of `MetricsCalculator._count_syllables`:
vowel-group count over the letters-only word, minus one for a silent
final e with more than one group, floored at one; an all-filtered
word contributes nothing. -/
def syllablesOfWord (w : List Char) : ℕ :=
  let w2 := w.filter isLowerAZ
  if w2 = [] then 0
  else
    let g := vowelGroups w2
    let g2 := if w2.getLast? = some 'e' ∧ 1 < g then g - 1 else g
    max 1 g2

/-- `MetricsCalculator._count_syllables`, embedded from
src/utils/metrics_calculator.py lines 125-146. -/
def count_syllables (text : List Char) : ℕ :=
  ((pySplit (text.map Char.toLower)).map syllablesOfWord).sum

/-- `MetricsCalculator.calculate_readability`, embedded from
src/utils/metrics_calculator.py lines 35-49: the Flesch formula with
explicit zero guards. -/
def calculate_readability (text : List Char) : ℚ :=
  if pyStrip text = [] then 0
  else
    let s := count_sentences text
    let w := count_words text
    let y := count_syllables text
    if s = 0 ∨ w = 0 then 0
    else
      max 0 (min 100
        (206835/1000 - (1015/1000) * ((w : ℚ) / (s : ℚ)) - (846/10) * ((y : ℚ) / (w : ℚ))))

/-- The stripped non-blank sentence list used by the fluency
heuristics. -/
def sentenceList (text : List Char) : List (List Char) :=
  ((splitPunctRuns text).map pyStrip).filter (fun s => decide (s ≠ []))

/-- `MetricsCalculator._calculate_word_variety`. -/
def word_variety (text : List Char) : ℚ :=
  let words := (pySplit text).map (List.map Char.toLower)
  if words = [] then 0
  else min 100 (((words.dedup.length : ℚ) / (words.length : ℚ)) * 100)

/-- `MetricsCalculator._calculate_sentence_variety`; the square root
of the library is an external numeric routine, abstracted as sqrtF. -/
def sentence_variety (sqrtF : ℚ → ℚ) (text : List Char) : ℚ :=
  let sentences := sentenceList text
  if sentences.length < 2 then 50
  else
    let lengths := sentences.map (fun s => (((pySplit s).length : ℕ) : ℚ))
    let avg := lengths.sum / (lengths.length : ℚ)
    let variance := (lengths.map (fun x => (x - avg) ^ 2)).sum / (lengths.length : ℚ)
    min 100 ((sqrtF variance / avg) * 100)

/-- Count of adjacent equal word pairs. -/
def countAdjDup : List (List Char) → ℕ
  | [] => 0
  | [_] => 0
  | a :: b :: rest => (if a = b then 1 else 0) + countAdjDup (b :: rest)

/-- `MetricsCalculator._calculate_grammar_score`: the unused TextBlob
object of the source has no effect and is omitted. -/
def grammar_score (text : List Char) : ℚ :=
  if pyStrip text = [] then 0
  else
    let sentences := sentenceList text
    let short := (sentences.filter (fun s => decide ((pySplit s).length < 3))).length
    let long := (sentences.filter (fun s => decide (25 < (pySplit s).length))).length
    let dups := countAdjDup (pySplit (text.map Char.toLower))
    max 0 (min 100 (100 - 5 * (short : ℚ) - 10 * (long : ℚ) - 5 * (dups : ℚ)))

/-- The fixed connective-word list of the coherence heuristic. -/
def connecting_words : List (List Char) :=
  [['a', 'n', 'd'], ['b', 'u', 't'], ['o', 'r'], ['s', 'o'],
    ['b', 'e', 'c', 'a', 'u', 's', 'e'], ['a', 'l', 't', 'h', 'o', 'u', 'g', 'h'],
    ['h', 'o', 'w', 'e', 'v', 'e', 'r'], ['t', 'h', 'e', 'r', 'e', 'f', 'o', 'r', 'e'],
    ['m', 'o', 'r', 'e', 'o', 'v', 'e', 'r'],
    ['f', 'u', 'r', 't', 'h', 'e', 'r', 'm', 'o', 'r', 'e'],
    ['m', 'e', 'a', 'n', 'w', 'h', 'i', 'l', 'e'],
    ['c', 'o', 'n', 's', 'e', 'q', 'u', 'e', 'n', 't', 'l', 'y']]

/-- `MetricsCalculator._calculate_coherence_score`. -/
def coherence_score (text : List Char) : ℚ :=
  if pyStrip text = [] then 0
  else
    let sentences := sentenceList text
    if sentences.length < 2 then 75
    else
      let cnt := (sentences.filter (fun s =>
        (pySplit (s.map Char.toLower)).any (fun w => connecting_words.contains w))).length
      min 100 (50 + 10 * (cnt : ℚ))

/-- `MetricsCalculator.calculate_fluency`, embedded from
src/utils/metrics_calculator.py lines 51-70. -/
def calculate_fluency (sqrtF : ℚ → ℚ) (text : List Char) : ℚ :=
  if pyStrip text = [] then 0
  else
    min 100 (max 0
      (word_variety text * (1/4) + sentence_variety sqrtF text * (1/4)
        + grammar_score text * (3/10) + coherence_score text * (1/5)))

/-! ## Claim C8 -/

/-- C8: the malformed-input guards. Readability returns zero on blank
text and whenever the sentence or word count is zero, so the two
divisions are unreachable at zero; fluency returns zero on blank
text; the error-rate metric returns its documented defaults on a
zero-word original; accuracy returns one hundred on an empty
original; the spelling and punctuation stages map empty text to empty
text with no suggestions. -/
theorem C8_blank_guards :
    (∀ text : List Char, pyStrip text = [] → calculate_readability text = 0) ∧
    (∀ text : List Char, count_sentences text = 0 → calculate_readability text = 0) ∧
    (∀ text : List Char, count_words text = 0 → calculate_readability text = 0) ∧
    (∀ (sqrtF : ℚ → ℚ) (text : List Char), pyStrip text = [] →
      calculate_fluency sqrtF text = 0) ∧
    (∀ o c : List Char, pySplit o = [] → calculate_error_rate o c = ⟨0, 100, 0⟩) ∧
    (∀ c : List Char, calculate_accuracy [] c = 100) ∧
    (∀ (sp : Speller) (t : ℚ), correct_spelling sp [] t = ([], [])) ∧
    (∀ t : ℚ, correct_punctuation [] t = ([], [])) := by
  refine ⟨?_, ?_, ?_, ?_, ?_, ?_, ?_, ?_⟩
  · intro text h
    unfold calculate_readability
    rw [if_pos h]
  · intro text h
    unfold calculate_readability
    by_cases hb : pyStrip text = []
    · rw [if_pos hb]
    · rw [if_neg hb, if_pos (Or.inl h)]
  · intro text h
    unfold calculate_readability
    by_cases hb : pyStrip text = []
    · rw [if_pos hb]
    · rw [if_neg hb, if_pos (Or.inr h)]
  · intro sqrtF text h
    unfold calculate_fluency
    rw [if_pos h]
  · intro o c h
    unfold calculate_error_rate
    rw [h]
    rfl
  · simp [calculate_accuracy]
  · intro sp t
    rfl
  · intro t
    rfl

/-- Witness for C8: the guards discharged on concrete inputs. -/
theorem C8_blank_guards_witness :
    calculate_readability [] = 0 ∧
    calculate_readability ([' ']) = 0 ∧
    calculate_readability (['\t']) = 0 ∧
    calculate_fluency (fun q => q) [] = 0 ∧
    calculate_error_rate ([' ']) (['a']) = ⟨0, 100, 0⟩ := by
  refine ⟨?_, ?_, ?_, ?_, ?_⟩
  · exact C8_blank_guards.1 [] rfl
  · exact C8_blank_guards.2.1 ([' '])
      (by simp +decide [count_sentences, splitPunctRuns, isSentencePunct, pyStrip, isSpaceChar])
  · exact C8_blank_guards.2.2.1 (['\t']) (by decide)
  · exact C8_blank_guards.2.2.2.1 (fun q => q) [] rfl
  · exact C8_blank_guards.2.2.2.2.1 ([' ']) (['a']) (by decide)

end Autocorrect
